import Mathlib

/-!
Verification development for the tree-sitter Tcl grammar (`grammar.js`).

The grammar is a declarative tree-sitter grammar.  We shallow-embed the
rules that the properties below are about as executable Lean parsers:

* the `expr` mini-language (`binop_expr`, `unary_expr`, `ternary_expr`,
  `_expr_atom_no_brace`, `_expr`, `expr`) becomes a precedence-climbing
  parser over a token stream, where `prec.left(n, ...)` in the source is
  rendered as "parse the right operand with minimum precedence `n + 1`"
  (the standard encoding of left associativity in precedence climbing);
* the word model (`_word_simple`, `_concat_word`, `variable_substitution`,
  `id`, `array_index`, `quoted_word`, `braced_word_simple`) becomes a
  character-level recursive-descent parser;
* the builtin command rules (`after`, `namespace`, `set`, `regsub_literal`)
  are embedded at the level the source states them.

Whitespace conventions: tree-sitter `extras` permit whitespace between
tokens; `token.immediate` forbids it.  The external scanner implementing
`$._concat` is declared in `grammar.js` but its source is not part of the
grammar file, so fragment adjacency is modelled from the specification's
description (see `word_simple`).
-/

namespace Tcl

/-- Characters the JavaScript regex class `\s` matches (the forms that can
occur in Tcl source); used by `simple_word` and for skipping `extras`. -/
def wsAny (c : Char) : Bool :=
  c = ' ' || c = '\t' || c = '\n' || c = '\r' || c = '\x0b' || c = '\x0c'

/-- Byte class of the `simple_word` token, from
`simple_word: /[^!$\s\\\[\]{}();"]+/` (grammar.js line 523). -/
def simpleChar (c : Char) : Bool :=
  !(c = '!' || c = '$' || wsAny c || c = '\\' || c = '[' || c = ']' ||
    c = '{' || c = '}' || c = '(' || c = ')' || c = ';' || c = '"')

/-- First character of `_ident`: `[a-zA-Z_]` (grammar.js line 319). -/
def identStart (c : Char) : Bool :=
  ('a' ≤ c && c ≤ 'z') || ('A' ≤ c && c ≤ 'Z') || c = '_'

/-- Continuation character of `_ident`: `[a-zA-Z0-9_]`. -/
def identChar (c : Char) : Bool :=
  identStart c || ('0' ≤ c && c ≤ '9')

/-- ASCII digit. -/
def digitChar (c : Char) : Bool := '0' ≤ c && c ≤ '9'

/-- Splits a list at the first element not satisfying `p` (structural
version of `List.span`, kept local so proofs can unfold it freely). -/
def spanP (p : Char → Bool) : List Char → (List Char × List Char)
  | [] => ([], [])
  | c :: r =>
    if p c then
      let s := spanP p r
      (c :: s.1, s.2)
    else ([], c :: r)

-- --------------------------------------------------------------------------
-- The `expr` mini-language (grammar.js lines 395-477)
-- --------------------------------------------------------------------------

/-- The binary operators of `binop_expr` (grammar.js lines 456-474). -/
inductive BinOp
  | exp            -- `**`
  | mul | div | mod
  | add | sub
  | shl | shr
  | gt | lt | ge | le
  | eqB | neB      -- `==` `!=`
  | eqS | neS      -- `eq` `ne`
  | inOp | niOp    -- `in` `ni`
  | andBit         -- `&`
  | xorBit         -- `^`
  | orBit          -- `|`
  | andLog         -- `&&`
  | orLog          -- `||`
deriving DecidableEq, Repr, Fintype

/-- Numeric precedence of each binary operator, from the `PREC` table
(grammar.js lines 11-28) as used by `binop_expr`. -/
def binOpLevel : BinOp → Nat
  | .exp => 140
  | .mul | .div | .mod => 130
  | .add | .sub => 120
  | .shl | .shr => 110
  | .gt | .lt | .ge | .le => 100
  | .eqB | .neB => 90
  | .eqS | .neS => 80
  | .inOp | .niOp => 70
  | .andBit => 60
  | .xorBit => 50
  | .orBit => 40
  | .andLog => 30
  | .orLog => 20

/-- `PREC.unary` (grammar.js line 13). -/
def PREC_unary : Nat := 150

/-- `PREC.ternary` (grammar.js line 27). -/
def PREC_ternary : Nat := 10

/-- `PREC.after_delay` (grammar.js line 12). -/
def PREC_after_delay : Nat := 160

/-- Token stream of the expression sub-grammar.  Atom-sized tokens
(`_number`, `_boolean`, `simple_word`, `command_substitution`,
`quoted_word`, `variable_substitution`) carry their matched text. -/
inductive ETok
  | num (s : String)        -- `_number`
  | bool (s : String)       -- `_boolean`
  | word (s : String)       -- `simple_word` (math function names)
  | op (o : BinOp)
  | tilde | bang            -- unary-only `~` and `!`
  | question | colon        -- ternary `?` `:`
  | lparen | rparen
  | lbrace | rbrace
  | cmdsub (s : String)     -- `command_substitution`, interior kept raw
  | quoted (s : String)     -- `quoted_word`, interior kept raw
  | var (s : String)        -- `variable_substitution`
  | esc (c : Char)          -- `escaped_character`
deriving DecidableEq, Repr

/-- Expression syntax tree (`_expr` and its alternatives). -/
inductive Expr
  | num (s : String)
  | bool (s : String)
  | mathFunc (name : String) (arg : Expr)   -- `simple_word "(" _expr ")"`
  | cmdSub (s : String)
  | quoted (s : String)
  | varSub (s : String)
  | bracedLit (toks : List ETok)            -- `braced_word_simple` operand
  | escaped (c : Char)
  | unary (op : Char) (e : Expr)
  | binary (o : BinOp) (l r : Expr)
  | ternary (c t e : Expr)
deriving DecidableEq, Repr

/-- Collects the tokens of a brace-balanced span: the interior of a
`braced_word_simple` operand, stopping at the matching `}`. -/
def takeBraced : List ETok → Nat → Option (List ETok × List ETok)
  | [], _ => none
  | ETok.rbrace :: r, 0 => some ([], r)
  | ETok.rbrace :: r, d + 1 =>
    match takeBraced r d with
    | some (ts, rest) => some (ETok.rbrace :: ts, rest)
    | none => none
  | ETok.lbrace :: r, d =>
    match takeBraced r (d + 1) with
    | some (ts, rest) => some (ETok.lbrace :: ts, rest)
    | none => none
  | t :: r, d =>
    match takeBraced r d with
    | some (ts, rest) => some (t :: ts, rest)
    | none => none

mutual

/-- `_expr_atom_no_brace` (grammar.js lines 407-433): a number, a boolean,
a math-function call, a command substitution, a quoted string, or a
variable substitution. -/
def expr_atom_no_brace : Nat → List ETok → Option (Expr × List ETok)
  | 0, _ => none
  | fuel + 1, ts =>
    match ts with
    | ETok.num s :: r => some (Expr.num s, r)
    | ETok.bool s :: r => some (Expr.bool s, r)
    | ETok.word s :: ETok.lparen :: r =>
      match expr_climbing fuel r with
      | some (e, ETok.rparen :: r2) => some (Expr.mathFunc s e, r2)
      | _ => none
    | ETok.cmdsub s :: r => some (Expr.cmdSub s, r)
    | ETok.quoted s :: r => some (Expr.quoted s, r)
    | ETok.var s :: r => some (Expr.varSub s, r)
    | _ => none

/-- Primary alternatives of `_expr` (grammar.js lines 435-449):
`unary_expr`, a parenthesized `_expr`, an `_expr_atom_no_brace`, an
`escaped_character`, or a `braced_word_simple` raw operand. -/
def expr_primary : Nat → List ETok → Option (Expr × List ETok)
  | 0, _ => none
  | fuel + 1, ts =>
    match ts with
    | ETok.op BinOp.sub :: r =>
      match expr_operand fuel (PREC_unary + 1) r with
      | some (e, r2) => some (Expr.unary '-' e, r2)
      | none => none
    | ETok.op BinOp.add :: r =>
      match expr_operand fuel (PREC_unary + 1) r with
      | some (e, r2) => some (Expr.unary '+' e, r2)
      | none => none
    | ETok.tilde :: r =>
      match expr_operand fuel (PREC_unary + 1) r with
      | some (e, r2) => some (Expr.unary '~' e, r2)
      | none => none
    | ETok.bang :: r =>
      match expr_operand fuel (PREC_unary + 1) r with
      | some (e, r2) => some (Expr.unary '!' e, r2)
      | none => none
    | ETok.lparen :: r =>
      match expr_climbing fuel r with
      | some (e, ETok.rparen :: r2) => some (e, r2)
      | _ => none
    | ETok.lbrace :: r =>
      match takeBraced r 0 with
      | some (ts2, rest) => some (Expr.bracedLit ts2, rest)
      | none => none
    | ETok.esc c :: r => some (Expr.escaped c, r)
    | _ => expr_atom_no_brace fuel ts

/-- Binary/ternary layer of `_expr`: having parsed `lhs`, repeatedly
consume an operator whose precedence is at least `min`.  Left
associativity of every `prec.left` level is the `binOpLevel o + 1`
passed for the right operand. -/
def expr_extend : Nat → Nat → Expr → List ETok → Option (Expr × List ETok)
  | 0, _, _, _ => none
  | fuel + 1, min, lhs, ts =>
    match ts with
    | ETok.op o :: r =>
      if min ≤ binOpLevel o then
        match expr_primary fuel r with
        | some (rhs, r2) =>
          match expr_extend fuel (binOpLevel o + 1) rhs r2 with
          | some (rhs2, r3) => expr_extend fuel min (Expr.binary o lhs rhs2) r3
          | none => none
        | none => none
      else some (lhs, ts)
    | ETok.question :: r =>
      if min ≤ PREC_ternary then
        match expr_climbing fuel r with
        | some (t, ETok.colon :: r2) =>
          match expr_operand fuel (PREC_ternary + 1) r2 with
          | some (e, r3) => expr_extend fuel min (Expr.ternary lhs t e) r3
          | none => none
        | _ => none
      else some (lhs, ts)
    | _ => some (lhs, ts)

/-- Parses one operand at minimum precedence `min`: a primary followed by
`expr_extend`. -/
def expr_operand : Nat → Nat → List ETok → Option (Expr × List ETok)
  | 0, _, _ => none
  | fuel + 1, min, ts =>
    match expr_primary fuel ts with
    | some (lhs, r) => expr_extend fuel min lhs r
    | none => none

/-- A full `_expr`: an operand at minimum precedence 0. -/
def expr_climbing : Nat → List ETok → Option (Expr × List ETok)
  | 0, _ => none
  | fuel + 1, ts => expr_operand fuel 0 ts

end

/-- Fuel sufficient for any input of the given token count. -/
def exprFuel (ts : List ETok) : Nat := 8 * ts.length + 32

/-- The `expr` rule (grammar.js line 451):
`choice(seq("{", $._expr, "}"), $._expr_atom_no_brace)` — a braced full
expression, or a single non-braced atom. -/
def expr_rule (ts : List ETok) : Option (Expr × List ETok) :=
  match ts with
  | ETok.lbrace :: r =>
    match expr_climbing (exprFuel ts) r with
    | some (e, ETok.rbrace :: r2) => some (e, r2)
    | _ => none
  | _ => expr_atom_no_brace (exprFuel ts) ts

/-- True exactly on the constructors produced by `_expr_atom_no_brace`. -/
def isAtomNB : Expr → Bool
  | .num _ | .bool _ | .mathFunc _ _ | .cmdSub _ | .quoted _ | .varSub _ => true
  | _ => false

/-- Matches the `_number` token body after its optional sign
(grammar.js lines 395-402): digits, optional `.digits`, optional
`[eE][+-]?digits`.  Returns the matched characters and the rest. -/
def lexNumberBody (cs : List Char) : Option (List Char × List Char) :=
  let s1 := spanP digitChar cs
  if s1.1 = [] then none
  else
    let withFrac : List Char × List Char :=
      match s1.2 with
      | '.' :: r2 =>
        let s2 := spanP digitChar r2
        if s2.1 = [] then (s1.1, s1.2)
        else (s1.1 ++ '.' :: s2.1, s2.2)
      | _ => (s1.1, s1.2)
    match withFrac.2 with
    | 'e' :: r2 =>
      match r2 with
      | '+' :: r3 =>
        let s3 := spanP digitChar r3
        if s3.1 = [] then some withFrac
        else some (withFrac.1 ++ 'e' :: '+' :: s3.1, s3.2)
      | '-' :: r3 =>
        let s3 := spanP digitChar r3
        if s3.1 = [] then some withFrac
        else some (withFrac.1 ++ 'e' :: '-' :: s3.1, s3.2)
      | _ =>
        let s3 := spanP digitChar r2
        if s3.1 = [] then some withFrac
        else some (withFrac.1 ++ 'e' :: s3.1, s3.2)
    | 'E' :: r2 =>
      match r2 with
      | '+' :: r3 =>
        let s3 := spanP digitChar r3
        if s3.1 = [] then some withFrac
        else some (withFrac.1 ++ 'E' :: '+' :: s3.1, s3.2)
      | '-' :: r3 =>
        let s3 := spanP digitChar r3
        if s3.1 = [] then some withFrac
        else some (withFrac.1 ++ 'E' :: '-' :: s3.1, s3.2)
      | _ =>
        let s3 := spanP digitChar r2
        if s3.1 = [] then some withFrac
        else some (withFrac.1 ++ 'E' :: s3.1, s3.2)
    | _ => some withFrac

/-- The `_boolean` token (grammar.js lines 404-405), letter forms:
`/[Tt][Rr][Uu][Ee]/` or `/[Ff][Aa][Ll][Ss][Ee]/` (the `1`/`0` forms lex
as numbers, matching the `choice` order of `_expr_atom_no_brace`). -/
def isBoolWord (s : String) : Bool :=
  match s.data with
  | [c1, c2, c3, c4] =>
    (c1 = 'T' || c1 = 't') && (c2 = 'R' || c2 = 'r') &&
    (c3 = 'U' || c3 = 'u') && (c4 = 'E' || c4 = 'e')
  | [c1, c2, c3, c4, c5] =>
    (c1 = 'F' || c1 = 'f') && (c2 = 'A' || c2 = 'a') &&
    (c3 = 'L' || c3 = 'l') && (c4 = 'S' || c4 = 's') &&
    (c5 = 'E' || c5 = 'e')
  | _ => false

/-- The word-shaped binary operators of `binop_expr`. -/
def wordBinOp (s : String) : Option BinOp :=
  if s = "eq" then some .eqS
  else if s = "ne" then some .neS
  else if s = "in" then some .inOp
  else if s = "ni" then some .niOp
  else none

/-- Lexer for the expression sub-grammar.  Two-character operator tokens
are matched before one-character ones (maximal munch).  A leading sign
on a `_number` is produced as an operator token here: in tree-sitter the
sign/unary-minus split is decided by parse state, and no property below
involves signed literals. -/
def exprLex : Nat → List Char → Option (List ETok)
  | 0, _ => none
  | _ + 1, [] => some []
  | fuel + 1, c :: r =>
    if wsAny c then exprLex fuel r
    else if digitChar c then
      match lexNumberBody (c :: r) with
      | some (tok, rest) =>
        match exprLex fuel rest with
        | some ts => some (ETok.num (String.mk tok) :: ts)
        | none => none
      | none => none
    else if identStart c then
      let s := spanP identChar r
      let w := String.mk (c :: s.1)
      let tok :=
        if isBoolWord w then ETok.bool w
        else match wordBinOp w with
          | some o => ETok.op o
          | none => ETok.word w
      match exprLex fuel s.2 with
      | some ts => some (tok :: ts)
      | none => none
    else
      match c, r with
      | '*', '*' :: r2 => (exprLex fuel r2).map (ETok.op .exp :: ·)
      | '<', '<' :: r2 => (exprLex fuel r2).map (ETok.op .shl :: ·)
      | '>', '>' :: r2 => (exprLex fuel r2).map (ETok.op .shr :: ·)
      | '<', '=' :: r2 => (exprLex fuel r2).map (ETok.op .le :: ·)
      | '>', '=' :: r2 => (exprLex fuel r2).map (ETok.op .ge :: ·)
      | '=', '=' :: r2 => (exprLex fuel r2).map (ETok.op .eqB :: ·)
      | '!', '=' :: r2 => (exprLex fuel r2).map (ETok.op .neB :: ·)
      | '&', '&' :: r2 => (exprLex fuel r2).map (ETok.op .andLog :: ·)
      | '|', '|' :: r2 => (exprLex fuel r2).map (ETok.op .orLog :: ·)
      | '*', _ => (exprLex fuel r).map (ETok.op .mul :: ·)
      | '/', _ => (exprLex fuel r).map (ETok.op .div :: ·)
      | '%', _ => (exprLex fuel r).map (ETok.op .mod :: ·)
      | '+', _ => (exprLex fuel r).map (ETok.op .add :: ·)
      | '-', _ => (exprLex fuel r).map (ETok.op .sub :: ·)
      | '<', _ => (exprLex fuel r).map (ETok.op .lt :: ·)
      | '>', _ => (exprLex fuel r).map (ETok.op .gt :: ·)
      | '&', _ => (exprLex fuel r).map (ETok.op .andBit :: ·)
      | '^', _ => (exprLex fuel r).map (ETok.op .xorBit :: ·)
      | '|', _ => (exprLex fuel r).map (ETok.op .orBit :: ·)
      | '~', _ => (exprLex fuel r).map (ETok.tilde :: ·)
      | '!', _ => (exprLex fuel r).map (ETok.bang :: ·)
      | '?', _ => (exprLex fuel r).map (ETok.question :: ·)
      | ':', _ => (exprLex fuel r).map (ETok.colon :: ·)
      | '(', _ => (exprLex fuel r).map (ETok.lparen :: ·)
      | ')', _ => (exprLex fuel r).map (ETok.rparen :: ·)
      | '{', _ => (exprLex fuel r).map (ETok.lbrace :: ·)
      | '}', _ => (exprLex fuel r).map (ETok.rbrace :: ·)
      | '\\', e :: r2 => (exprLex fuel r2).map (ETok.esc e :: ·)
      | '$', _ =>
        match r with
        | '{' :: r2 =>
          let s := spanP (· ≠ '}') r2
          if s.1 = [] then none
          else
            match s.2 with
            | '}' :: r3 => (exprLex fuel r3).map (ETok.var (String.mk s.1) :: ·)
            | _ => none
        | d :: r2 =>
          if identStart d then
            let s := spanP identChar r2
            (exprLex fuel s.2).map (ETok.var (String.mk (d :: s.1)) :: ·)
          else none
        | [] => none
      | '"', _ =>
        let s := spanP (· ≠ '"') r
        match s.2 with
        | '"' :: r3 => (exprLex fuel r3).map (ETok.quoted (String.mk s.1) :: ·)
        | _ => none
      | '[', _ =>
        let s := spanP (· ≠ ']') r
        match s.2 with
        | ']' :: r3 => (exprLex fuel r3).map (ETok.cmdsub (String.mk s.1) :: ·)
        | _ => none
      | _, _ => none

/-- `expr_cmd` (grammar.js line 223): `seq("expr", $.expr)`, applied to a
whole command string.  The keyword must be followed by whitespace, and
the `expr` rule must consume the remaining tokens exactly. -/
def expr_cmd (s : String) : Option Expr :=
  match s.data with
  | 'e' :: 'x' :: 'p' :: 'r' :: c :: rest =>
    if wsAny c then
      match exprLex (rest.length + 2) (c :: rest) with
      | some ts =>
        match expr_rule ts with
        | some (e, []) => some e
        | _ => none
      | none => none
    else none
  | _ => none

-- --------------------------------------------------------------------------
-- The word model (grammar.js lines 286-358, 495-523)
-- --------------------------------------------------------------------------

/-- Word syntax tree: one constructor per alternative of the word model
(`simple_word`, `escaped_character`, `command_substitution`,
`_quoted_word_content`, `quoted_word`, `variable_substitution`,
`braced_word_simple`, `braced_word`, the `_concat` merge, `unpack`). -/
inductive TclWord
  | simple (s : String)
  | escaped (c : Char)
  | cmdSub (raw : String)
  | lit (s : String)
  | quoted (parts : List TclWord)
  | varSub (name : String) (index : Option TclWord)
  | bracedSimple (parts : List TclWord)
  | braced (raw : String)
  | concat (ws : List TclWord)
  | unpack (w : TclWord)

/-- Skips the whitespace `extras` permit between tokens. -/
def skipWs (cs : List Char) : List Char := (spanP wsAny cs).2

/-- One `_ident` / `_ident_imm` token: `[a-zA-Z_][a-zA-Z0-9_]*`
(grammar.js lines 318-319). -/
def takeIdent (cs : List Char) : Option (String × List Char) :=
  match cs with
  | c :: r =>
    if identStart c then
      let s := spanP identChar r
      some (String.mk (c :: s.1), s.2)
    else none
  | [] => none

/-- `repeat(seq($._ns_delim, $._ident_imm))`: further `::`-joined segments,
immediately adjacent (`token.immediate`, grammar.js lines 316-318). -/
def idSegs : Nat → List Char → (List String × List Char)
  | 0, cs => ([], cs)
  | fuel + 1, cs =>
    match cs with
    | ':' :: ':' :: r =>
      match takeIdent r with
      | some (seg, r2) =>
        let t := idSegs fuel r2
        (seg :: t.1, t.2)
      | none => ([], cs)
    | _ => ([], cs)

/-- The `id` rule (grammar.js lines 328-332): an optional leading `::`
followed by one `ident`, then any number of immediately adjacent
`:: ident` segments.  `_id_immediate` (lines 321-326) has the same
shape and is embedded by this same function. -/
def id_rule (cs : List Char) : Option ((Bool × List String) × List Char) :=
  match cs with
  | ':' :: ':' :: r =>
    match takeIdent r with
    | some (seg, r2) =>
      let t := idSegs r2.length r2
      some ((true, seg :: t.1), t.2)
    | none => none
  | _ =>
    match takeIdent cs with
    | some (seg, r2) =>
      let t := idSegs r2.length r2
      some ((false, seg :: t.1), t.2)
    | none => none

/-- Matched text of an `id`, as stored by `variable_substitution`. -/
def renderId (lead : Bool) (segs : List String) : String :=
  (if lead then "::" else "") ++ String.intercalate "::" segs

/-- Raw capture of a delimiter-balanced span (interior of
`command_substitution` and of `braced_word`; both parse their interior
as nested commands in the source, which no property below inspects, so
the interior is kept as raw text here). -/
def takeDelim (od cl : Char) : List Char → Nat → Option (List Char × List Char)
  | [], _ => none
  | c :: r, d =>
    if c = cl then
      match d with
      | 0 => some ([], r)
      | d' + 1 =>
        match takeDelim od cl r d' with
        | some (a, b) => some (c :: a, b)
        | none => none
    else if c = od then
      match takeDelim od cl r (d + 1) with
      | some (a, b) => some (c :: a, b)
      | none => none
    else
      match takeDelim od cl r d with
      | some (a, b) => some (c :: a, b)
      | none => none

/-- Character class of `_quoted_word_content`: `/[^$\\\[\]"]+/`
(grammar.js line 514). -/
def quotedContentChar (c : Char) : Bool :=
  !(c = '$' || c = '\\' || c = '[' || c = ']' || c = '"')

mutual

/-- One fragment of `_word_simple` (grammar.js lines 291-302), in the
source's `choice` order: `escaped_character`, `command_substitution`,
`simple_word`, `quoted_word`, `variable_substitution`,
`braced_word_simple`. -/
def word_simple_frag : Nat → List Char → Option (TclWord × List Char)
  | 0, _ => none
  | fuel + 1, cs =>
    match cs with
    | '\\' :: c :: r => some (.escaped c, r)
    | '[' :: r =>
      match takeDelim '[' ']' r 0 with
      | some (a, b) => some (.cmdSub (String.mk a), b)
      | none => none
    | '"' :: _ => quoted_word fuel cs
    | '$' :: _ => variable_substitution fuel cs
    | '{' :: _ => braced_word_simple fuel cs
    | c :: r =>
      if simpleChar c then
        let s := spanP simpleChar r
        some (.simple (String.mk (c :: s.1)), s.2)
      else none
    | [] => none

/-- One fragment of `_concat_word` (grammar.js lines 304-314):
`escaped_character`, `command_substitution`,
`seq(simple_word, optional(array_index))`, `quoted_word`,
`variable_substitution`. -/
def concat_word_frag : Nat → List Char → Option (TclWord × List Char)
  | 0, _ => none
  | fuel + 1, cs =>
    match cs with
    | '\\' :: c :: r => some (.escaped c, r)
    | '[' :: r =>
      match takeDelim '[' ']' r 0 with
      | some (a, b) => some (.cmdSub (String.mk a), b)
      | none => none
    | '"' :: _ => quoted_word fuel cs
    | '$' :: _ => variable_substitution fuel cs
    | c :: r =>
      if simpleChar c then
        let s := spanP simpleChar r
        match array_index fuel s.2 with
        | some (ix, r2) => some (.concat [.simple (String.mk (c :: s.1)), ix], r2)
        | none => some (.simple (String.mk (c :: s.1)), s.2)
      else none
    | [] => none

/-- `_word_simple` (grammar.js lines 291-302):
`interleaved1(fragment, $._concat)`.
Modelled from the spec: the external scanner implementing `$._concat`
(declared in `externals`, source not part of grammar.js) merges adjacent
fragments "that are *not* separated by whitespace into a single `Concat`
word"; here a follow-up fragment parse succeeds only when it begins at
the very next character, which is exactly that adjacency condition. -/
def word_simple : Nat → List Char → Option (TclWord × List Char)
  | 0, _ => none
  | fuel + 1, cs =>
    match word_simple_frag fuel cs with
    | some (w, r) => word_simple_rest fuel [w] r
    | none => none

/-- Continuation of `_word_simple`: accumulated fragments (reversed). -/
def word_simple_rest : Nat → List TclWord → List Char → Option (TclWord × List Char)
  | 0, _, _ => none
  | fuel + 1, acc, cs =>
    match word_simple_frag fuel cs with
    | some (w, r) => word_simple_rest fuel (w :: acc) r
    | none =>
      match acc with
      | [w] => some (w, cs)
      | _ => some (.concat acc.reverse, cs)

/-- `_concat_word` (grammar.js lines 304-314), same interleaving as
`_word_simple` over its own fragment set. -/
def concat_word : Nat → List Char → Option (TclWord × List Char)
  | 0, _ => none
  | fuel + 1, cs =>
    match concat_word_frag fuel cs with
    | some (w, r) => concat_word_rest fuel [w] r
    | none => none

/-- Continuation of `_concat_word`. -/
def concat_word_rest : Nat → List TclWord → List Char → Option (TclWord × List Char)
  | 0, _, _ => none
  | fuel + 1, acc, cs =>
    match concat_word_frag fuel cs with
    | some (w, r) => concat_word_rest fuel (w :: acc) r
    | none =>
      match acc with
      | [w] => some (w, cs)
      | _ => some (.concat acc.reverse, cs)

/-- `quoted_word` (grammar.js lines 495-510): `"` then a repetition of
variable substitutions, literal content runs, command substitutions and
escapes, then `"` (the `'""'` empty form is subsumed by an empty
repetition). -/
def quoted_word : Nat → List Char → Option (TclWord × List Char)
  | 0, _ => none
  | fuel + 1, cs =>
    match cs with
    | '"' :: r => quoted_parts fuel [] r
    | _ => none

/-- Interior of `quoted_word`; accumulated parts (reversed). -/
def quoted_parts : Nat → List TclWord → List Char → Option (TclWord × List Char)
  | 0, _, _ => none
  | fuel + 1, acc, cs =>
    match cs with
    | '"' :: r => some (.quoted acc.reverse, r)
    | '\\' :: c :: r => quoted_parts fuel (.escaped c :: acc) r
    | '$' :: _ =>
      match variable_substitution fuel cs with
      | some (w, r) => quoted_parts fuel (w :: acc) r
      | none => none
    | '[' :: r =>
      match takeDelim '[' ']' r 0 with
      | some (a, b) => quoted_parts fuel (.cmdSub (String.mk a) :: acc) b
      | none => none
    | c :: r =>
      if quotedContentChar c then
        let s := spanP quotedContentChar r
        quoted_parts fuel (.lit (String.mk (c :: s.1)) :: acc) s.2
      else none
    | [] => none

/-- `variable_substitution` (grammar.js lines 336-344): `$` followed by
either an immediate `_id_immediate` name or `{` + a non-empty run of
bytes other than `}` (`/[^}]+/`) + `}`, then an optional immediately
adjacent `array_index`. -/
def variable_substitution : Nat → List Char → Option (TclWord × List Char)
  | 0, _ => none
  | fuel + 1, cs =>
    match cs with
    | '$' :: '{' :: r =>
      let s := spanP (· ≠ '}') r
      if s.1 = [] then none
      else
        match s.2 with
        | '}' :: r2 => var_index fuel (String.mk s.1) r2
        | _ => none
    | '$' :: r =>
      match id_rule r with
      | some ((lead, segs), r2) => var_index fuel (renderId lead segs) r2
      | none => none
    | _ => none

/-- The optional `array_index` tail of a `variable_substitution`. -/
def var_index : Nat → String → List Char → Option (TclWord × List Char)
  | 0, _, _ => none
  | fuel + 1, name, cs =>
    match array_index fuel cs with
    | some (ix, r) => some (.varSub name (some ix), r)
    | none => some (.varSub name none, cs)

/-- `array_index` (grammar.js line 334):
`seq(token.immediate("("), $._word_simple, ")")`. -/
def array_index : Nat → List Char → Option (TclWord × List Char)
  | 0, _ => none
  | fuel + 1, cs =>
    match cs with
    | '(' :: r =>
      match word_simple fuel r with
      | some (w, r2) =>
        match skipWs r2 with
        | ')' :: r3 => some (w, r3)
        | _ => none
      | none => none
    | _ => none

/-- `braced_word_simple` (grammar.js line 358):
`seq("{", repeat($._word_simple), "}")`. -/
def braced_word_simple : Nat → List Char → Option (TclWord × List Char)
  | 0, _ => none
  | fuel + 1, cs =>
    match cs with
    | '{' :: r => braced_simple_items fuel [] r
    | _ => none

/-- Interior of `braced_word_simple`; accumulated words (reversed). -/
def braced_simple_items : Nat → List TclWord → List Char → Option (TclWord × List Char)
  | 0, _, _ => none
  | fuel + 1, acc, cs =>
    match skipWs cs with
    | '}' :: r => some (.bracedSimple acc.reverse, r)
    | cs2 =>
      match word_simple fuel cs2 with
      | some (w, r) => braced_simple_items fuel (w :: acc) r
      | none => none

end

/-- `_word` (grammar.js lines 288-289):
`seq(optional($.unpack), choice($.braced_word, $._concat_word))`, with
`unpack: "{*}"` (line 286) and `braced_word` (lines 346-356) captured as
a raw balanced-brace span. -/
def word_rule : Nat → List Char → Option (TclWord × List Char)
  | 0, _ => none
  | fuel + 1, cs =>
    match cs with
    | '{' :: '*' :: '}' :: r =>
      match word_core fuel r with
      | some (w, r2) => some (.unpack w, r2)
      | none => word_core fuel cs
    | _ => word_core fuel cs
where
  /-- The `choice($.braced_word, $._concat_word)` part of `_word`. -/
  word_core : Nat → List Char → Option (TclWord × List Char)
    | 0, _ => none
    | _ + 1, cs =>
      match cs with
      | '{' :: r =>
        match takeDelim '{' '}' r 0 with
        | some (a, b) => some (.braced (String.mk a), b)
        | none => none
      | _ => concat_word (4 * cs.length + 16) cs

/-- Splits a whole command line into its words (`word_list`, grammar.js
line 284, extended to consume the entire line). -/
def word_list : Nat → List Char → Option (List TclWord)
  | 0, _ => none
  | fuel + 1, cs =>
    match skipWs cs with
    | [] => some []
    | cs2 =>
      match word_rule fuel cs2 with
      | some (w, r) =>
        match word_list fuel r with
        | some ws => some (w :: ws)
        | none => none
      | none => none

/-- All the words of a command line. -/
def words (s : String) : Option (List TclWord) :=
  word_list (4 * s.data.length + 16) s.data

-- --------------------------------------------------------------------------
-- Builtin command rules
-- --------------------------------------------------------------------------

/-- Target of a `set` command (grammar.js lines 364-367):
`choice(seq($.id, optional($.array_index)), seq("$", "{", /[^}]+/, "}"))`. -/
inductive SetTarget
  | ident (lead : Bool) (segs : List String) (index : Option TclWord)
  | bracedName (name : String)

/-- A parsed `set` command: the target and the at-most-one value word
(`optional($._word_simple)`, grammar.js line 368). -/
structure SetCmd where
  target : SetTarget
  value : Option TclWord

/-- Parses the target alternatives of `set`.  The braced-name alternative
requires a non-empty interior (`/[^}]+/`). -/
def set_target : Nat → List Char → Option (SetTarget × List Char)
  | 0, _ => none
  | fuel + 1, cs =>
    match cs with
    | '$' :: '{' :: r =>
      let s := spanP (· ≠ '}') r
      if s.1 = [] then none
      else
        match s.2 with
        | '}' :: r2 => some (.bracedName (String.mk s.1), r2)
        | _ => none
    | _ =>
      match id_rule cs with
      | some ((lead, segs), r) =>
        match array_index fuel r with
        | some (ix, r2) => some (.ident lead segs (some ix), r2)
        | none => some (.ident lead segs none, r)
      | none => none

/-- The `set` rule (grammar.js lines 360-370) applied to one whole
command line.  The keyword is eligible only when the leading
`simple_word` token is exactly `set` and is not immediately followed by
another fragment (which would `_concat`-merge into one word and fall to
the generic command). -/
def set (s : String) : Option SetCmd :=
  let cs := s.data
  let t := spanP simpleChar cs
  if String.mk t.1 = "set" then
    match t.2 with
    | [] => none
    | c :: r =>
      if wsAny c then
        let cs2 := skipWs (c :: r)
        match set_target (4 * cs2.length + 16) cs2 with
        | some (tg, r2) =>
          match skipWs r2 with
          | [] => some ⟨tg, none⟩
          | r3 =>
            match word_simple (4 * r3.length + 16) r3 with
            | some (w, r4) =>
              if skipWs r4 = [] then some ⟨tg, some w⟩ else none
            | none => none
        | none => none
      else none
  else none

/-- A word is a `simple_word`: non-empty and within the `simple_word`
byte class. -/
def isSimpleWordStr (s : String) : Bool :=
  !s.isEmpty && s.data.all simpleChar

/-- A word matches the `_number` token (grammar.js lines 395-402):
optional sign, digits with optional fractional part, optional
exponent. -/
def isNumberStr (s : String) : Bool :=
  match s.data with
  | '-' :: r =>
    match lexNumberBody r with
    | some (_, []) => true
    | _ => false
  | '+' :: r =>
    match lexNumberBody r with
    | some (_, []) => true
    | _ => false
  | cs =>
    match lexNumberBody cs with
    | some (_, []) => true
    | _ => false

/-- The four alternatives of the `after` rule (grammar.js lines 81-90). -/
inductive AfterForm
  | delay (ms : String) (script : Option String)
  | cancel (ids : List String)
  | idle (scripts : List String)
  | info (id : Option String)
deriving DecidableEq, Repr

/-- The `after` rule (grammar.js lines 81-90) over the words of a
command.  `prec(PREC.after_delay, ...)` gives the delay alternative
priority, so it is tried first.  The second alternative requires the
literal word `chancel` (the source's spelling); its
`choice($.simple_word, repeat($.simple_word))` admits any number of
simple words, including none. -/
def after (ws : List String) : Option AfterForm :=
  match ws with
  | w :: rest =>
    if w = "after" then
      match rest with
      | ms :: tail =>
        if isNumberStr ms then
          match tail with
          | [] => some (.delay ms none)
          | [scr] => some (.delay ms (some scr))
          | _ => none
        else if ms = "chancel" then
          if tail.all isSimpleWordStr then some (.cancel tail) else none
        else if ms = "idle" then
          if tail.all isSimpleWordStr then some (.idle tail) else none
        else if ms = "info" then
          match tail with
          | [] => some (.info none)
          | [i] => if isSimpleWordStr i then some (.info (some i)) else none
          | _ => none
        else none
      | [] => none
    else none
  | [] => none

/-- The subcommand keywords of the `namespace` rule, in source order
(grammar.js lines 236-262). -/
def namespaceSubcommands : List String :=
  ["children", "code", "current", "delete", "eval", "exists", "export",
   "forget", "import", "inscope", "origin", "parent", "qualifiers",
   "tail", "which"]

/-- Drops one optional leading flag word. -/
def dropLead (flag : String) (args : List String) : List String :=
  match args with
  | a :: r => if a = flag then r else a :: r
  | [] => []

/-- The `namespace` rule (grammar.js lines 236-262; `namespace` is a Lean
keyword, hence the `Rule` suffix): the keyword followed by one of
fifteen subcommand alternatives, each with the argument shape literally
enumerated in the source.  Word-level: each argument word is a string,
checked against `simple_word` where the source demands `$.simple_word`
and unconstrained where it demands `$._word`. -/
def namespaceRule (sub : String) (args : List String) : Bool :=
  if sub = "children" then decide (args.length ≤ 2) && args.all isSimpleWordStr
  else if sub = "code" then decide (args.length = 1)
  else if sub = "current" then decide (args = [])
  else if sub = "delete" then !args.isEmpty && args.all isSimpleWordStr
  else if sub = "eval" then
    match args with
    | ns :: _ => isSimpleWordStr ns
    | [] => false
  else if sub = "exists" then
    match args with
    | [ns] => isSimpleWordStr ns
    | _ => false
  else if sub = "export" then (dropLead "-clear" args).all isSimpleWordStr
  else if sub = "forget" then args.all isSimpleWordStr
  else if sub = "import" then (dropLead "-force" args).all isSimpleWordStr
  else if sub = "inscope" then
    match args with
    | ns :: _ :: _ => isSimpleWordStr ns
    | _ => false
  else if sub = "origin" then
    match args with
    | [c] => isSimpleWordStr c
    | _ => false
  else if sub = "parent" then
    match args with
    | [] => true
    | [ns] => isSimpleWordStr ns
    | _ => false
  else if sub = "qualifiers" then
    match args with
    | [x] => isSimpleWordStr x
    | _ => false
  else if sub = "tail" then
    match args with
    | [x] => isSimpleWordStr x
    | _ => false
  else if sub = "which" then
    match args with
    | [n] => isSimpleWordStr n
    | [f, n] => (f = "-command" || f = "-variable") && isSimpleWordStr n
    | _ => false
  else false

/-- One alternative of `regsub_literal` (grammar.js lines 207-212). -/
inductive RegsubLit
  | braced (interior : List Char)
  | quotedLit (interior : List Char)
  | word (s : String)
deriving DecidableEq, Repr

/-- `regsub_literal` (grammar.js lines 207-212):
`token(seq("{", /[^}]*/, "}"))`, or `token(seq('"', /[^"]*/, '"'))`, or
a `simple_word` — each a single token with no interior structure. -/
def regsub_literal (cs : List Char) : Option (RegsubLit × List Char) :=
  match cs with
  | [] => none
  | c :: r =>
    if c = '{' then
      match spanP (· ≠ '}') r with
      | (mid, '}' :: r2) => some (.braced mid, r2)
      | _ => none
    else if c = '"' then
      match spanP (· ≠ '"') r with
      | (mid, '"' :: r2) => some (.quotedLit mid, r2)
      | _ => none
    else if simpleChar c then
      let s := spanP simpleChar r
      some (.word (String.mk (c :: s.1)), s.2)
    else none

-- --------------------------------------------------------------------------
-- Command dispatch (for the determinism property)
-- --------------------------------------------------------------------------

/-- A parsed command: one of the builtins embedded above, or the generic
`command` word list (grammar.js lines 276-282). -/
inductive Cmd
  | setCmd (c : SetCmd)
  | afterCmd (f : AfterForm)
  | namespaceCmd (sub : String) (args : List String)
  | generic (ws : List TclWord)

/-- The text of a word when it is a plain `simple_word`. -/
def simpleStr : TclWord → Option String
  | .simple s => some s
  | _ => none

/-- Parses one command line: builtin dispatch on a literal first word
(`_command`, grammar.js line 274), falling back to the generic word-list
command. -/
def parseCommand (s : String) : Option Cmd :=
  match set s with
  | some c => some (.setCmd c)
  | none =>
    match words s with
    | some ws =>
      match ws.mapM simpleStr with
      | some strs =>
        match after strs with
        | some f => some (.afterCmd f)
        | none =>
          match strs with
          | "namespace" :: sub :: args =>
            if namespaceRule sub args then some (.namespaceCmd sub args)
            else some (.generic ws)
          | _ => some (.generic ws)
      | none => some (.generic ws)
    | none => none

/-- Builds the source text `expr { inner }` without whitespace between the
braces and `inner`, for the concrete pipeline checks below. -/
def exprCmdBraced (inner : String) : String :=
  "expr " ++ String.mk ('{' :: inner.data ++ ['}'])

/-- The test input `expr {1 + {raw text}}` of the specification's §8. -/
def rawBracedExample : String :=
  String.mk ['e', 'x', 'p', 'r', ' ', '{', '1', ' ', '+', ' ',
             '{', 'r', 'a', 'w', ' ', 't', 'e', 'x', 't', '}', '}']

/-- One argument list of the shape each `namespace` subcommand demands,
used to check that every enumerated subcommand is accepted. -/
def nsCanonicalArgs : String → List String
  | "current" => []
  | "inscope" => ["ns", "s"]
  | _ => ["x"]

-- --------------------------------------------------------------------------
-- Helper lemmas
-- --------------------------------------------------------------------------

theorem spanP_append (p : Char → Bool) (cs : List Char) :
    (spanP p cs).1 ++ (spanP p cs).2 = cs := by
  induction cs with
  | nil => simp [spanP]
  | cons c r ih =>
    by_cases h : p c = true
    · simp [spanP, h, ih]
    · simp [spanP, h]

theorem spanP_fst_all (p : Char → Bool) (cs : List Char) :
    ∀ x ∈ (spanP p cs).1, p x = true := by
  induction cs with
  | nil => simp [spanP]
  | cons c r ih =>
    by_cases h : p c = true
    · simp only [spanP, h, if_true]
      intro x hx
      rcases List.mem_cons.mp hx with rfl | hx
      · exact h
      · exact ih x hx
    · simp [spanP, h]

theorem not_mem_spanP_ne (ch : Char) (cs : List Char) :
    ch ∉ (spanP (· ≠ ch) cs).1 := by
  intro hm
  have := spanP_fst_all _ cs ch hm
  simp at this

theorem spanP_all_prefix (p : Char → Bool) (a : List Char) (c : Char) (b : List Char)
    (ha : ∀ x ∈ a, p x = true) (hc : p c = false) :
    spanP p (a ++ c :: b) = (a, c :: b) := by
  induction a with
  | nil => simp [spanP, hc]
  | cons x xs ih =>
    have hx : p x = true := ha x (by simp)
    simp [spanP, hx, ih (fun y hy => ha y (by simp [hy]))]

/-- A successful `_expr_atom_no_brace` parse yields one of the six atom
constructors. -/
theorem atomNB_sound (fuel : Nat) (ts : List ETok) (e : Expr) (r : List ETok)
    (h : expr_atom_no_brace fuel ts = some (e, r)) : isAtomNB e = true := by
  cases fuel with
  | zero => exact Option.noConfusion h
  | succ n =>
    simp only [expr_atom_no_brace] at h
    split at h <;> (try split at h) <;>
      first
        | (simp only [Option.some.injEq, Prod.mk.injEq] at h
           obtain ⟨rfl, rfl⟩ := h
           rfl)
        | simp at h

/-- The braced alternative of `regsub_literal` consumes exactly `{`, a
run of non-`}` bytes, and `}`. -/
theorem regsub_braced_inv (r mid rest : List Char)
    (h : regsub_literal ('{' :: r) = some (.braced mid, rest)) :
    r = mid ++ '}' :: rest ∧ '}' ∉ mid := by
  simp only [regsub_literal, if_pos] at h
  split at h
  next mid2 r2 heq =>
    simp only [Option.some.injEq, Prod.mk.injEq, RegsubLit.braced.injEq] at h
    obtain ⟨rfl, rfl⟩ := h
    have happ := spanP_append (· ≠ '}') r
    have hnm := not_mem_spanP_ne '}' r
    rw [heq] at happ hnm
    exact ⟨happ.symm, hnm⟩
  next => exact absurd h (by simp)

/-- Conversely, any brace-wrapped run without `}` is accepted. -/
theorem regsub_braced_accepts (mid rest : List Char) (hnm : '}' ∉ mid) :
    regsub_literal ('{' :: (mid ++ '}' :: rest)) = some (.braced mid, rest) := by
  have hs := spanP_all_prefix (· ≠ '}') mid '}' rest
    (fun x hx => decide_eq_true (fun he => hnm (he ▸ hx))) (by simp)
  simp only [regsub_literal, reduceIte]
  rw [hs]
  rfl

/-- The quoted alternative of `regsub_literal` consumes exactly `"`, a
run of non-`"` bytes, and `"`. -/
theorem regsub_quoted_inv (r mid rest : List Char)
    (h : regsub_literal ('"' :: r) = some (.quotedLit mid, rest)) :
    r = mid ++ '"' :: rest ∧ '"' ∉ mid := by
  simp only [regsub_literal] at h
  split at h
  next hc => exact absurd hc (by decide)
  next hc =>
    split at h
    next hc2 =>
      split at h
      next mid2 r2 heq =>
        simp only [Option.some.injEq, Prod.mk.injEq, RegsubLit.quotedLit.injEq] at h
        obtain ⟨rfl, rfl⟩ := h
        have happ := spanP_append (· ≠ '"') r
        have hnm := not_mem_spanP_ne '"' r
        rw [heq] at happ hnm
        exact ⟨happ.symm, hnm⟩
      next => exact absurd h (by simp)
    next hc2 => exact absurd trivial hc2

/-- A word outside the fifteen subcommand keywords is rejected by the
`namespace` rule whatever its arguments. -/
theorem nsRule_false (sub : String) (args : List String)
    (hn : sub ∉ namespaceSubcommands) : namespaceRule sub args = false := by
  simp only [namespaceSubcommands, List.mem_cons, List.not_mem_nil, or_false] at hn
  push_neg at hn
  obtain ⟨n1, n2, n3, n4, n5, n6, n7, n8, n9, n10, n11, n12, n13, n14, n15⟩ := hn
  unfold namespaceRule
  rw [if_neg n1, if_neg n2, if_neg n3, if_neg n4, if_neg n5, if_neg n6,
      if_neg n7, if_neg n8, if_neg n9, if_neg n10, if_neg n11, if_neg n12,
      if_neg n13, if_neg n14, if_neg n15]

-- --------------------------------------------------------------------------
-- Claim theorems
-- --------------------------------------------------------------------------

/-- C1: the claim says the second `after` alternative is selected by the
literal word `cancel`, but the source (grammar.js line 87) spells the
keyword `chancel` — against its own comment `after cancel id/script` —
so `after cancel x` matches no `after` alternative and falls to the
generic command, while `after chancel x` is the one that parses as the
cancel form; the delay form (`after ms ?script?`) does parse, first
among the alternatives per `PREC.after_delay`. -/
theorem after_cancel_is_misspelled :
    after ["after", "cancel", "x"] = none ∧
    after ["after", "chancel", "x"] = some (AfterForm.cancel ["x"]) ∧
    after ["after", "100", "y"] = some (AfterForm.delay "100" (some "y")) ∧
    after ["after", "100"] = some (AfterForm.delay "100" none) ∧
    parseCommand "after cancel x" =
      some (Cmd.generic [TclWord.simple "after", TclWord.simple "cancel",
                         TclWord.simple "x"]) :=
  ⟨rfl, rfl, rfl, rfl, rfl⟩

/-- C2: `**` is `prec.left` in the source (grammar.js line 458), so a
chain `a ** b ** c` inside a braced `expr` groups to
`Binary(**, Binary(**, a, b), c)`; concretely `expr {2 ** 3 ** 2}`
parses that way through the whole lexing-plus-parsing pipeline. -/
theorem exp_left_associative (a b c : String) :
    expr_rule [ETok.lbrace, ETok.num a, ETok.op BinOp.exp, ETok.num b,
               ETok.op BinOp.exp, ETok.num c, ETok.rbrace] =
      some (Expr.binary BinOp.exp
              (Expr.binary BinOp.exp (Expr.num a) (Expr.num b))
              (Expr.num c), []) ∧
    expr_cmd (exprCmdBraced "2 ** 3 ** 2") =
      some (Expr.binary BinOp.exp
              (Expr.binary BinOp.exp (Expr.num "2") (Expr.num "3"))
              (Expr.num "2")) :=
  ⟨rfl, rfl⟩

/-- C3: for every pair of binary operators, the one with the higher
`PREC` level binds tighter: in `1 op2 2 op1 3` with
`PREC op1 > PREC op2`, the right operator groups first; concretely
`expr {1 + 2 * 3}` yields `Binary(+, 1, Binary(*, 2, 3))`. -/
theorem higher_level_binds_tighter :
    ∀ o1 o2 : BinOp, binOpLevel o2 < binOpLevel o1 →
      expr_rule [ETok.lbrace, ETok.num "1", ETok.op o2, ETok.num "2",
                 ETok.op o1, ETok.num "3", ETok.rbrace] =
        some (Expr.binary o2 (Expr.num "1")
                (Expr.binary o1 (Expr.num "2") (Expr.num "3")), []) ∧
      expr_cmd (exprCmdBraced "1 + 2 * 3") =
        some (Expr.binary BinOp.add (Expr.num "1")
                (Expr.binary BinOp.mul (Expr.num "2") (Expr.num "3"))) := by
  decide

theorem higher_level_binds_tighter_witness :
    binOpLevel BinOp.add < binOpLevel BinOp.mul ∧
    (expr_rule [ETok.lbrace, ETok.num "1", ETok.op BinOp.add, ETok.num "2",
                ETok.op BinOp.mul, ETok.num "3", ETok.rbrace] =
       some (Expr.binary BinOp.add (Expr.num "1")
               (Expr.binary BinOp.mul (Expr.num "2") (Expr.num "3")), []) ∧
     expr_cmd (exprCmdBraced "1 + 2 * 3") =
       some (Expr.binary BinOp.add (Expr.num "1")
               (Expr.binary BinOp.mul (Expr.num "2") (Expr.num "3")))) :=
  ⟨by decide, higher_level_binds_tighter BinOp.mul BinOp.add (by decide)⟩

/-- C4: whenever the `expr` rule succeeds on a stream not starting with
`{`, the resulting node is one of the six `_expr_atom_no_brace` atoms —
never a binary, unary or ternary node — whereas the braced form parses
the full grammar including braced raw literals: `expr 12` parses, the
unbraced `expr 1 + 2` does not, and `expr {1 + {raw text}}` yields a
binary node over a raw braced literal. -/
theorem expr_unbraced_single_atom (ts : List ETok) (e : Expr) (rest : List ETok)
    (h : expr_rule ts = some (e, rest)) :
    (ts.head? = some ETok.lbrace ∨ isAtomNB e = true) ∧
    expr_cmd "expr 12" = some (Expr.num "12") ∧
    expr_cmd "expr 1 + 2" = none ∧
    expr_cmd rawBracedExample =
      some (Expr.binary BinOp.add (Expr.num "1")
              (Expr.bracedLit [ETok.word "raw", ETok.word "text"])) := by
  refine ⟨?_, rfl, rfl, rfl⟩
  match ts with
  | ETok.lbrace :: r => exact Or.inl rfl
  | [] => exact Or.inr (atomNB_sound _ _ _ _ h)
  | ETok.num s :: r => exact Or.inr (atomNB_sound _ _ _ _ h)
  | ETok.bool s :: r => exact Or.inr (atomNB_sound _ _ _ _ h)
  | ETok.word s :: r => exact Or.inr (atomNB_sound _ _ _ _ h)
  | ETok.op o :: r => exact Or.inr (atomNB_sound _ _ _ _ h)
  | ETok.tilde :: r => exact Or.inr (atomNB_sound _ _ _ _ h)
  | ETok.bang :: r => exact Or.inr (atomNB_sound _ _ _ _ h)
  | ETok.question :: r => exact Or.inr (atomNB_sound _ _ _ _ h)
  | ETok.colon :: r => exact Or.inr (atomNB_sound _ _ _ _ h)
  | ETok.lparen :: r => exact Or.inr (atomNB_sound _ _ _ _ h)
  | ETok.rparen :: r => exact Or.inr (atomNB_sound _ _ _ _ h)
  | ETok.rbrace :: r => exact Or.inr (atomNB_sound _ _ _ _ h)
  | ETok.cmdsub s :: r => exact Or.inr (atomNB_sound _ _ _ _ h)
  | ETok.quoted s :: r => exact Or.inr (atomNB_sound _ _ _ _ h)
  | ETok.var s :: r => exact Or.inr (atomNB_sound _ _ _ _ h)
  | ETok.esc c :: r => exact Or.inr (atomNB_sound _ _ _ _ h)

theorem expr_unbraced_single_atom_witness :
    (([ETok.num "7"] : List ETok).head? = some ETok.lbrace ∨
       isAtomNB (Expr.num "7") = true) ∧
    expr_cmd "expr 12" = some (Expr.num "12") ∧
    expr_cmd "expr 1 + 2" = none ∧
    expr_cmd rawBracedExample =
      some (Expr.binary BinOp.add (Expr.num "1")
              (Expr.bracedLit [ETok.word "raw", ETok.word "text"])) :=
  expr_unbraced_single_atom [ETok.num "7"] (Expr.num "7") [] rfl

/-- C5 counterexample: the `namespace` rule enumerates fifteen
subcommand keywords, not thirteen; the fourteenth and fifteenth of the
claim's own list (`tail`, `which`) are both accepted. -/
theorem namespace_not_thirteen :
    namespaceSubcommands.length = 15 ∧
    ¬ namespaceSubcommands.length = 13 ∧
    namespaceRule "tail" ["x"] = true ∧
    namespaceRule "which" ["x"] = true := by
  refine ⟨rfl, by decide, by decide, by decide⟩

/-- C5 (amended): the `namespace` builtin accepts exactly the fifteen
subcommands `children code current delete eval exists export forget`,
`import inscope origin parent qualifiers tail which`, each with its
fixed argument shape; any other second word is rejected by the rule. -/
theorem namespace_subcommands_characterized (sub : String) (args : List String)
    (h : namespaceRule sub args = true) :
    sub ∈ namespaceSubcommands ∧
    namespaceSubcommands.length = 15 ∧
    (namespaceSubcommands.all fun s => namespaceRule s (nsCanonicalArgs s)) = true := by
  refine ⟨?_, rfl, by decide⟩
  by_contra hn
  rw [nsRule_false sub args hn] at h
  exact absurd h (by simp)

theorem namespace_subcommands_characterized_witness :
    "tail" ∈ namespaceSubcommands ∧
    namespaceSubcommands.length = 15 ∧
    (namespaceSubcommands.all fun s => namespaceRule s (nsCanonicalArgs s)) = true :=
  namespace_subcommands_characterized "tail" ["x"] (by decide)

/-- C6: parsing is deterministic — the parser is a pure function of the
input text, so two parses of the same string are structurally equal. -/
theorem parse_deterministic (s : String) (t1 t2 : Option Cmd)
    (h1 : parseCommand s = t1) (h2 : parseCommand s = t2) : t1 = t2 := by
  subst h1
  subst h2
  rfl

theorem parse_deterministic_witness :
    (some (Cmd.setCmd ⟨SetTarget.ident false ["x"] none,
                       some (TclWord.simple "1")⟩) : Option Cmd) =
      some (Cmd.setCmd ⟨SetTarget.ident false ["x"] none,
                        some (TclWord.simple "1")⟩) :=
  parse_deterministic "set x 1" _ _ rfl rfl

/-- C7: adjacent substitution fragments with no intervening whitespace
merge into one word: the value of `set x $a$b` is a single `Concat` of
two variable substitutions; with a space, `set x $a $b` has two value
words, which the `set` rule (at most one `optional($._word_simple)`)
rejects, while generic word-splitting sees four separate words. -/
theorem set_value_concatenation :
    Tcl.set "set x $a$b" =
      some ⟨SetTarget.ident false ["x"] none,
            some (TclWord.concat [TclWord.varSub "a" none,
                                  TclWord.varSub "b" none])⟩ ∧
    Tcl.set "set x $a $b" = none ∧
    words "set x $a $b" =
      some [TclWord.simple "set", TclWord.simple "x",
            TclWord.varSub "a" none, TclWord.varSub "b" none] :=
  ⟨rfl, rfl, rfl⟩

/-- C8: `::` joins identifier segments only when immediately adjacent:
`set ::a::b 1` and `set a::b 1` parse their targets as one qualified
identifier, while in `a :: b` the `id` rule consumes only `a` (the
whitespace breaks adjacency) and `set a :: b` does not parse as a `set`
command at all. -/
theorem ns_separator_adjacency :
    Tcl.set "set ::a::b 1" =
      some ⟨SetTarget.ident true ["a", "b"] none, some (TclWord.simple "1")⟩ ∧
    Tcl.set "set a::b 1" =
      some ⟨SetTarget.ident false ["a", "b"] none, some (TclWord.simple "1")⟩ ∧
    id_rule ('a' :: ' ' :: ':' :: ':' :: ' ' :: 'b' :: []) =
      some ((false, ["a"]), ' ' :: ':' :: ':' :: ' ' :: 'b' :: []) ∧
    Tcl.set "set a :: b" = none :=
  ⟨rfl, rfl, rfl, rfl⟩

/-- C9: a braced `regsub_literal` is exactly `{`, a possibly empty run
of non-`}` bytes, and `}` (sound and complete); hence `{a{b}c}` is never
one literal — the token stops at the first `}`, leaving `c}` — and the
quoted form's interior admits no `"` byte, so an escaped `\"` still
terminates it. -/
theorem regsub_literal_shape (mid rest r : List Char) :
    (regsub_literal ('{' :: r) = some (RegsubLit.braced mid, rest) →
      r = mid ++ '}' :: rest ∧ '}' ∉ mid) ∧
    ('}' ∉ mid →
      regsub_literal ('{' :: (mid ++ '}' :: rest)) =
        some (RegsubLit.braced mid, rest)) ∧
    (regsub_literal ('"' :: r) = some (RegsubLit.quotedLit mid, rest) →
      r = mid ++ '"' :: rest ∧ '"' ∉ mid) ∧
    regsub_literal ['{', 'a', '{', 'b', '}', 'c', '}'] =
      some (RegsubLit.braced ['a', '{', 'b'], ['c', '}']) ∧
    (∀ lit rest2,
      regsub_literal ['{', 'a', '{', 'b', '}', 'c', '}'] = some (lit, rest2) →
        rest2 ≠ []) ∧
    regsub_literal ['"', 'a', '\\', '"', 'b', '"'] =
      some (RegsubLit.quotedLit ['a', '\\'], ['b', '"']) := by
  refine ⟨regsub_braced_inv r mid rest, regsub_braced_accepts mid rest,
          regsub_quoted_inv r mid rest, rfl, ?_, rfl⟩
  intro lit rest2 h
  rw [show regsub_literal ['{', 'a', '{', 'b', '}', 'c', '}'] =
        some (RegsubLit.braced ['a', '{', 'b'], ['c', '}']) from rfl] at h
  simp only [Option.some.injEq, Prod.mk.injEq] at h
  obtain ⟨-, rfl⟩ := h
  simp

theorem regsub_literal_shape_witness :
    (['}'] : List Char) = [] ++ '}' :: [] ∧ '}' ∉ ([] : List Char) :=
  (regsub_literal_shape [] [] ['}']).1 rfl

/-- C10: a braced-name variable substitution needs a non-empty name —
`${}` never parses as a `variable_substitution` (for any fuel and any
following text), and the braced-name target of `set` has the same
requirement — while `${x}` and `set ${x} 1` parse. -/
theorem braced_variable_name_nonempty :
    (∀ (fuel : Nat) (rest : List Char),
        variable_substitution fuel ('$' :: '{' :: '}' :: rest) = none) ∧
    (∀ (fuel : Nat) (rest : List Char),
        set_target fuel ('$' :: '{' :: '}' :: rest) = none) ∧
    variable_substitution 8 ('$' :: '{' :: 'x' :: '}' :: []) =
      some (TclWord.varSub "x" none, []) ∧
    Tcl.set "set ${} 1" = none ∧
    Tcl.set "set ${x} 1" =
      some ⟨SetTarget.bracedName "x", some (TclWord.simple "1")⟩ := by
  refine ⟨?_, ?_, rfl, rfl, rfl⟩ <;>
    (intro fuel rest
     cases fuel <;> rfl)

end Tcl
